import Mathlib

/-!
Verification of the robot-model core of the `compas` repository
(`src/compas/robots/model/robot.py`).

The data model (links, joints, mimics, limits) and the operations
(`_rebuild_tree`, `iter_chain`, `compute_transformations`,
`zero_configuration`, `scale`, `add_link`, `remove_joint`) are shallowly
embedded below.  Numeric joint positions and scale factors are modelled
as rationals; rigid transformations, supplied in the source by the
assumed-correct geometry collaborator, are modelled as a free monoid of
abstract transformation steps (composition is concatenation, the
identity transformation is the empty list).  Python dictionaries are
modelled as association lists with first-occurrence-wins lookup and
replace-or-append update, mirroring insertion-ordered dicts with unique
keys.  Recursive tree traversals of the source are embedded with an
explicit fuel argument; theorems are stated for every fuel value.
-/

/-- Lookup in an association list (Python `dict.get(k, None)`). -/
def alookup {α : Type} : List (String × α) → String → Option α
  | [], _ => none
  | p :: rest, k => if p.1 = k then some p.2 else alookup rest k

/-- Key membership in an association list (Python `k in d.keys()`). -/
def containsKey {α : Type} : List (String × α) → String → Bool
  | [], _ => false
  | p :: rest, k => if p.1 = k then true else containsKey rest k

/-- The keys of an association list, in order. -/
def keysOf {α : Type} (d : List (String × α)) : List String :=
  d.map Prod.fst

/-- Dictionary single-entry update (Python `d[k] = v`): replaces the value at
an existing key in place, otherwise appends the new entry at the end. -/
def updateEntry {α : Type} : List (String × α) → String → α → List (String × α)
  | [], k, v => [(k, v)]
  | p :: rest, k, v => if p.1 = k then (k, v) :: rest else p :: updateEntry rest k v

/-- Dictionary merge (Python `d.update(d2)`): folds `updateEntry` over the
entries of the second dictionary. -/
def updateDict {α : Type} (d d2 : List (String × α)) : List (String × α) :=
  d2.foldl (fun acc p => updateEntry acc p.1 p.2) d

/-- Dictionary entry deletion (Python `del d[k]`). -/
def eraseKey {α : Type} (d : List (String × α)) (k : String) : List (String × α) :=
  d.filter (fun p => p.1 ≠ k)

/-- Apply a function to the value stored at a key, if present. -/
def mapEntry : List (String × ℚ) → String → (ℚ → ℚ) → List (String × ℚ)
  | [], _, _ => []
  | p :: rest, k, f => if p.1 = k then (k, f p.2) :: rest else p :: mapEntry rest k f

/-- Primitive steps of a rigid transformation.  The geometry collaborator
(frames, rotations, translations) is out of scope and assumed correct, so
transformations are abstracted as words over primitive steps: an origin
frame (identified abstractly by a string), or the motion of a named joint
by a rational position. -/
inductive TrStep where
  | frame (f : String)
  | motion (joint : String) (pos : ℚ)
deriving DecidableEq

/-- A rigid transformation, abstracted as a word of primitive steps. -/
abbrev Tr := List TrStep

/-- The identity transformation (`Transformation()`). -/
def trIdentity : Tr := []

/-- Composition of transformations (`T1 * T2` on `compas` transformations). -/
def trMul (a b : Tr) : Tr := a ++ b

/-- Joint types (`Joint.SUPPORTED_TYPES`). -/
inductive JointType where
  | revolute
  | continuous
  | prismatic
  | fixed
  | floating
  | planar
deriving DecidableEq

/-- Joint limit (`compas.robots.model.joint.Limit`): lower and upper bound. -/
structure Limit where
  lower : ℚ
  upper : ℚ
deriving DecidableEq

/-- Mimic specification: target joint name, multiplier and offset. -/
structure Mimic where
  joint : String
  multiplier : ℚ
  offset : ℚ
deriving DecidableEq

/-- Modelled from the spec: `Mimic.calculate_position` of
`compas.robots.model.joint` (not under `src/`); the spec defines
`position = multiplier * target_position + offset`. -/
def Mimic.calculatePosition (m : Mimic) (targetPosition : ℚ) : ℚ :=
  m.multiplier * targetPosition + m.offset

/-- A joint record: name, type, parent link name (`str(joint.parent)`),
child link name (`joint.child.link`), optional origin frame, optional
axis, optional limit, optional mimic. -/
structure Joint where
  name : String
  jtype : JointType
  parent : String
  child : String
  origin : Option String := none
  axis : Option String := none
  limit : Option Limit := none
  mimic : Option Mimic := none
deriving DecidableEq

/-- A link record.  Visual and collision elements are geometry payloads
outside the modelled core, so only the name is carried. -/
structure Link where
  name : String
deriving DecidableEq

/-- The raw robot model: the canonical link and joint lists from which
`_rebuild_tree` derives all caches. -/
structure RobotModel where
  name : String
  links : List Link
  joints : List Joint
deriving DecidableEq

/-- Names of all links of a model. -/
def linkNames (m : RobotModel) : List String :=
  m.links.map Link.name

/-- Names of all joints of a model. -/
def jointNames (m : RobotModel) : List String :=
  m.joints.map Joint.name

/-- Children joints of a link name (`RobotModel.find_children_joints`):
all joints whose parent link name equals the given name. -/
def findChildrenJointsL (joints : List Joint) (linkName : String) : List Joint :=
  joints.filter (fun j => decide (j.parent = linkName))

/-- Parent joint of a link name (`RobotModel.find_parent_joint`): the first
joint whose child link name equals the given name, if any. -/
def findParentJointL (joints : List Joint) (linkName : String) : Option Joint :=
  joints.find? (fun j => decide (j.child = linkName))

/-- Children joints of a link in a model.  `_rebuild_tree` stores this
value in the `link.joints` cache, so post-rebuild reads of `link.joints`
are embedded through this function. -/
def findChildrenJoints (m : RobotModel) (linkName : String) : List Joint :=
  findChildrenJointsL m.joints linkName

/-- Parent joint of a link in a model (cached as `link.parent_joint`). -/
def findParentJoint (m : RobotModel) (linkName : String) : Option Joint :=
  findParentJointL m.joints linkName

/-- The root computation of `_rebuild_tree`: iterate the links in order and
record each link with no parent joint, so the last such link wins.  The
initial value is the previous `self.root` (`None` at construction). -/
def rootComputed (joints : List Joint) (links : List Link) (init : Option String) :
    Option String :=
  links.foldl (fun acc l => if (findParentJointL joints l.name).isNone then some l.name else acc)
    init

/-- The root link of a freshly built model (`self.root` after `__init__`,
which sets `self.root = None` and then calls `_rebuild_tree`). -/
def rootLink (m : RobotModel) : Option Link :=
  m.links.foldl (fun acc l => if (findParentJoint m l.name).isNone then some l else acc) none

/-- Modelled from the spec: `Joint.is_configurable` of
`compas.robots.model.joint` (not under `src/`); the spec states a joint is
configurable iff its type is revolute, continuous, prismatic or planar. -/
def Joint.isConfigurable (j : Joint) : Bool :=
  match j.jtype with
  | .revolute => true
  | .continuous => true
  | .prismatic => true
  | .planar => true
  | .fixed => false
  | .floating => false

/-- The origin-only local transform of a joint: the transformation of the
joint's fixed origin frame if one is set, otherwise the identity.  This is
the "origin-only transform" the spec ascribes to fixed and unconfigured
joint types. -/
def originOnlyTransform (j : Joint) : Tr :=
  match j.origin with
  | some f => [TrStep.frame f]
  | none => []

/-- Modelled from the spec: `Joint.calculate_transformation` of
`compas.robots.model.joint` (not under `src/`); the spec states the local
transform composes the joint's fixed origin (if set) with a motion about
or along the axis by the given position for configurable types, while
fixed and unconfigured types yield the origin-only transform. -/
def calculateTransformation (j : Joint) (position : ℚ) : Tr :=
  trMul (originOnlyTransform j)
    (if j.isConfigurable then [TrStep.motion j.name position] else [])

/-- A joint state (`joint_state` dict): joint name to numeric position. -/
abbrev JointState := List (String × ℚ)

/-- Value of a key in a joint state; only read under a `containsKey` guard,
mirroring `joint_state[name]` after `name in joint_state.keys()`. -/
def jsGet (js : JointState) (n : String) : ℚ :=
  (alookup js n).getD 0

/-- The per-child-joint transformation of `compute_transformations`
(robot.py lines 868-876): explicit joint-state value first, else mimic
resolution when the mimic target is present, else the parent
transformation passes through unchanged. -/
def childTransformation (js : JointState) (parentTr : Tr) (j : Joint) : Tr :=
  if containsKey js j.name then
    trMul parentTr (calculateTransformation j (jsGet js j.name))
  else
    match j.mimic with
    | some mm =>
        if containsKey js mm.joint then
          trMul parentTr (calculateTransformation j (Mimic.calculatePosition mm (jsGet js mm.joint)))
        else parentTr
    | none => parentTr

/-- The loop body of `compute_transformations` over the children joints of
the current link: record the child joint's transformation, merge the
recursive result for its child link, continue with the remaining
children.  `recurse` is the recursive call at the next fuel level. -/
def computeTStep (js : JointState) (parentTr : Tr)
    (recurse : String → Tr → List (String × Tr)) :
    List Joint → List (String × Tr) → List (String × Tr)
  | [], acc => acc
  | j :: rest, acc =>
      let t := childTransformation js parentTr j
      computeTStep js parentTr recurse rest
        (updateDict (updateEntry acc j.name t) (recurse j.child t))

/-- Embedding of `RobotModel.compute_transformations` (fuel-indexed): maps
every joint reached from the given link to its accumulated
transformation. -/
def computeT (m : RobotModel) (js : JointState) : Nat → String → Tr → List (String × Tr)
  | 0, _, _ => []
  | fuel + 1, linkName, parentTr =>
      computeTStep js parentTr (computeT m js fuel) (findChildrenJoints m linkName) []

/-- Embedding of `RobotModel.iter_joints` (fuel-indexed) starting at a
link: all children joints of the link followed by the recursive traversal
of each child joint's child link. -/
def iterJointsFrom (m : RobotModel) : Nat → String → List Joint
  | 0, _ => []
  | fuel + 1, linkName =>
      let cj := findChildrenJoints m linkName
      cj ++ cj.flatMap (fun j => iterJointsFrom m fuel j.child)

/-- Names of the joints of the subtree below a link, in traversal order. -/
def iterJointNames (m : RobotModel) (fuel : Nat) (linkName : String) : List String :=
  (iterJointsFrom m fuel linkName).map Joint.name

/-- A configuration triple (`compas.robots.Configuration`): values, joint
types and joint names, aligned by configurable-joint traversal order. -/
structure RobotConfiguration where
  values : List ℚ
  types : List JointType
  names : List String
deriving DecidableEq

/-- Embedding of `RobotModel.get_configurable_joints`: the joints of
`iter_joints` (root-first traversal) that are configurable.  When the
model has no root the source would fail on `self.root.joints`; the claims
only concern rooted models. -/
def getConfigurableJoints (m : RobotModel) (fuel : Nat) : List Joint :=
  match rootLink m with
  | some r => (iterJointsFrom m fuel r.name).filter Joint.isConfigurable
  | none => []

/-- The per-joint value of `zero_configuration` (robot.py lines 661-664):
`(upper + lower) / 2` when a limit is present and zero is outside it,
otherwise `0`. -/
def zeroValue (j : Joint) : ℚ :=
  match j.limit with
  | some lim => if ¬ (0 ≤ lim.upper ∧ 0 ≥ lim.lower) then (lim.upper + lim.lower) / 2 else 0
  | none => 0

/-- Embedding of `RobotModel.zero_configuration`. -/
def zeroConfiguration (m : RobotModel) (fuel : Nat) : RobotConfiguration :=
  let js := getConfigurableJoints m fuel
  { values := js.map zeroValue
    types := js.map Joint.jtype
    names := js.map Joint.name }

/-- The spec's description of the zero-configuration value: `0` when the
joint has no limit or zero lies within `[lower, upper]`, otherwise the
midpoint `(lower + upper) / 2`. -/
def specZeroValue (j : Joint) : ℚ :=
  match j.limit with
  | some lim => if lim.lower ≤ 0 ∧ 0 ≤ lim.upper then 0 else (lim.lower + lim.upper) / 2
  | none => 0

/-- Lookup in the `_adjacency` dictionary built by `_rebuild_tree`: links
are written first (link name to children joint names), joints second
(joint name to the one-element list of the child link name), so a joint
entry wins over a link entry of the same name and later list elements win
over earlier ones. -/
def adjLookup (m : RobotModel) (n : String) : Option (List String) :=
  match m.joints.reverse.find? (fun j => decide (j.name = n)) with
  | some j => some [j.child]
  | none =>
      match m.links.reverse.find? (fun l => decide (l.name = n)) with
      | some l => some ((findChildrenJoints m l.name).map Joint.name)
      | none => none

/-- Neighbours of a node in the adjacency graph. -/
def adjNbrs (m : RobotModel) (n : String) : List String :=
  (adjLookup m n).getD []

/-- Whether a name is a link name of the model. -/
def isLinkName (m : RobotModel) (n : String) : Bool :=
  decide (n ∈ linkNames m)

/-- Well-formedness of the model's name sets: every joint's child names an
existing link, and link names and joint names are disjoint (spec
invariants 1-2 as far as the chain resolver needs them). -/
def NamesOK (m : RobotModel) : Prop :=
  (∀ j ∈ m.joints, j.child ∈ linkNames m) ∧ ∀ n ∈ linkNames m, n ∉ jointNames m

/-- Python falsiness of an optional string argument (`if not start`):
either absent or the empty string. -/
def strFalsy : Option String → Bool
  | none => true
  | some s => decide (s = "")

/-- The search depth used by the embedded path search: enough for any
simple path in the bipartite link/joint graph. -/
def chainFuel (m : RobotModel) : Nat :=
  m.links.length + m.joints.length

/-- First successful result of the recursive path search over a list of
neighbour nodes. -/
def findPathList (recurse : String → Option (List String)) : List String → Option (List String)
  | [] => none
  | nb :: rest =>
      match recurse nb with
      | some p => some p
      | none => findPathList recurse rest

/-- Modelled from the spec: `compas.topology.shortest_path` (not under
`src/`); the spec's contract is to return the ordered node-name sequence
of the unique tree path between the two endpoints of the directed
adjacency.  The source performs a breadth-first search over simple paths;
since spec invariant 4 excludes cycles, the path is unique and a
fuel-bounded depth-first search returns the same path.  A `none` goal
(Python `None`) matches no node, so the search fails. -/
def findPath (m : RobotModel) : Nat → String → Option String → Option (List String)
  | fuel, s, goal =>
      if goal = some s then some [s]
      else
        match fuel with
        | 0 => none
        | f + 1 =>
            (findPathList (fun nb => findPath m f nb goal) (adjNbrs m s)).map
              (fun p => s :: p)

/-- Embedding of `RobotModel.iter_chain` (robot.py lines 412-450): resolve
the missing start from the root (failing when there is no root), resolve
the missing end by scanning the links in reverse for a childless one, run
the path search, and fail when no chain is found. -/
def iterChain (m : RobotModel) (start endName : Option String) : Except String (List String) :=
  let startR : Option String :=
    if strFalsy start then (rootLink m).map Link.name else start
  match startR with
  | none => Except.error ("No root link found")
  | some s =>
      let e : Option String :=
        if strFalsy endName then
          (m.links.reverse.find? (fun l => (findChildrenJoints m l.name).isEmpty)).map Link.name
        else endName
      match findPath m (chainFuel m) s e with
      | some chain =>
          if chain.isEmpty then Except.error ("No chain found between the specified element")
          else Except.ok chain
      | none => Except.error ("No chain found between the specified element")

/-- Strict alternation of link and joint names along a name sequence,
starting with the given kind (`true` = link name). -/
def altLJ (m : RobotModel) : Bool → List String → Bool
  | _, [] => true
  | b, n :: rest => (isLinkName m n = b) && altLJ m (!b) rest

/-- A path witness in the adjacency graph: the node list of a walk from
the first argument to the second. -/
inductive PathTo (m : RobotModel) : String → String → List String → Prop
  | refl (e : String) : PathTo m e e [e]
  | step {a b e : String} {p : List String} :
      b ∈ adjNbrs m a → PathTo m b e p → PathTo m a e (a :: p)

/-- The mutable state of a robot model: the canonical link and joint
lists, the caches rebuilt by `_rebuild_tree` (`link.joints`,
`link.parent_joint`, `self._links`, `self._joints`, `self._adjacency`,
`self.root`, keyed by name since names are unique in consistent models),
the recorded scale factor, and a per-joint accumulated scale multiplier
standing for the scaled geometry. -/
structure RobotState where
  links : List Link
  joints : List Joint
  linkChildJoints : List (String × List String)
  linkParentJoint : List (String × String)
  linksDict : List (String × Link)
  jointsDict : List (String × Joint)
  adjacency : List (String × List String)
  root : Option String
  scaleFactor : ℚ
  jointScale : List (String × ℚ)
deriving DecidableEq

/-- Embedding of `RobotModel._rebuild_tree` over the mutable state:
recompute every cache from the canonical link and joint lists.  The root
is overwritten by each parentless link in list order (so the last one
wins) and keeps its previous value when no link qualifies. -/
def rebuildState (st : RobotState) : RobotState :=
  { st with
    linkChildJoints :=
      st.links.foldl
        (fun acc l => updateEntry acc l.name ((findChildrenJointsL st.joints l.name).map Joint.name)) []
    linkParentJoint :=
      st.links.foldl
        (fun acc l =>
          match findParentJointL st.joints l.name with
          | some j => updateEntry acc l.name j.name
          | none => eraseKey acc l.name) []
    linksDict := st.links.foldl (fun acc l => updateEntry acc l.name l) []
    jointsDict := st.joints.foldl (fun acc j => updateEntry acc j.name j) []
    adjacency :=
      st.joints.foldl (fun acc j => updateEntry acc j.name [j.child])
        (st.links.foldl
          (fun acc l => updateEntry acc l.name ((findChildrenJointsL st.joints l.name).map Joint.name)) [])
    root := rootComputed st.joints st.links st.root }

/-- The rebuild pass as an effectful operation: the source `_rebuild_tree`
contains no failure path, so it always returns the rebuilt state. -/
def rebuildRun (st : RobotState) : Except String RobotState :=
  Except.ok (rebuildState st)

/-- Embedding of `RobotModel.add_link` (mesh and color payloads are
geometry outside the modelled state; `_create` only initializes
visual/collision transform caches, also outside the state).  An error
carries the state at the raise point, which for the duplicate-name check
is the unmodified input state. -/
def addLink (st : RobotState) (name : String) : Except (String × RobotState) (RobotState × Link) :=
  if name ∈ st.links.map Link.name then
    Except.error (("ValueError: Link name already used in chain."), st)
  else
    let link : Link := { name := name }
    let st1 := { st with links := st.links ++ [link] }
    if st1.links.length = 1 then Except.ok (rebuildState st1, link)
    else Except.ok (st1, link)

/-- Lookup of a link object by name (`RobotModel.get_link_by_name`):
returns the not-found sentinel `none` for unknown names. -/
def getLinkByNameSt (st : RobotState) (n : String) : Option Link :=
  alookup st.linksDict n

/-- Embedding of `RobotModel.remove_joint` (robot.py lines 1142-1159):
remove the joint from the joint list, trim the parent link's child-joint
cache and adjacency entry, and delete the child link's name-lookup entry
together with the joint's own dictionary and adjacency entries.  Errors
(attribute access on a missing joint or parent link, `del` of a missing
key) carry the state at the raise point. -/
def removeJoint (st : RobotState) (name : String) : Except (String × RobotState) RobotState :=
  match alookup st.jointsDict name with
  | none => Except.error (("AttributeError: NoneType has no attribute parent"), st)
  | some joint =>
      let st1 := { st with joints := st.joints.filter (fun j => decide (j.name ≠ name)) }
      match alookup st1.linksDict joint.parent with
      | none => Except.error (("AttributeError: NoneType has no attribute joints"), st1)
      | some parentLink =>
          let newChildren :=
            ((alookup st1.linkChildJoints parentLink.name).getD []).filter (fun n => decide (n ≠ name))
          let st2 :=
            { st1 with
              linkChildJoints := updateEntry st1.linkChildJoints parentLink.name newChildren
              adjacency := updateEntry st1.adjacency parentLink.name newChildren }
          if containsKey st2.linksDict joint.child then
            let st3 := { st2 with linksDict := eraseKey st2.linksDict joint.child }
            let st4 := { st3 with jointsDict := eraseKey st3.jointsDict name }
            if containsKey st4.adjacency name then
              Except.ok { st4 with adjacency := eraseKey st4.adjacency name }
            else Except.error (("KeyError in adjacency"), st4)
          else Except.error (("KeyError in links"), st2)

/-- The child link name reached through a joint's `child_link` cache:
resolved through the joint dictionary and the link name-lookup, `none`
when either lookup fails. -/
def childLinkOf (st : RobotState) (jointName : String) : Option String :=
  match alookup st.jointsDict jointName with
  | none => none
  | some j => if containsKey st.linksDict j.child then some j.child else none

/-- The loop body of `RobotModel.scale` over the children joints of the
current link: scale each child joint by the relative factor (modelled as
multiplying its accumulated scale multiplier) and recurse into its child
link. -/
def scaleStep (relative : ℚ) (recurse : RobotState → Option String → RobotState) :
    List String → RobotState → RobotState
  | [], st => st
  | jn :: rest, st =>
      let st1 := { st with jointScale := mapEntry st.jointScale jn (fun v => v * relative) }
      let st2 := recurse st1 (childLinkOf st1 jn)
      scaleStep relative recurse rest st2

/-- Embedding of `RobotModel.scale` (fuel-indexed).  A missing or root
link argument resolves to the root and divides the absolute factor by the
recorded scale factor; other links receive the already-relative factor
unchanged.  After the children are processed the recorded scale factor is
set to the call's factor, so the outermost call's factor survives.  When
the root is absent the source fails on `link.joints`; the claims only
concern rooted models.  `Joint.scale` itself (not under `src/`) is
modelled from the spec as accumulating the uniform multiplier. -/
def scaleRec : Nat → RobotState → ℚ → Option String → RobotState
  | 0, st, _, _ => st
  | fuel + 1, st, factor, linkOpt =>
      let atRoot : Bool := linkOpt.isNone || linkOpt == st.root
      let relative : ℚ := if atRoot then factor / st.scaleFactor else factor
      let target : Option String := if atRoot then st.root else linkOpt
      match target with
      | none => st
      | some l =>
          let children := (alookup st.linkChildJoints l).getD []
          let st1 := scaleStep relative (fun s lo => scaleRec fuel s relative lo) children st
          { st1 with scaleFactor := factor }

/-- Uniform application of a relative multiplier to the joint-scale map
along the same traversal as `scaleRec`, with the traversal caches read
from a fixed reference state: the claim-side description of what one
`scale` call does to the tree. -/
def uniformStep (st : RobotState) (relative : ℚ)
    (recurse : String → List (String × ℚ) → List (String × ℚ)) :
    List String → List (String × ℚ) → List (String × ℚ)
  | [], js => js
  | jn :: rest, js =>
      let js1 := mapEntry js jn (fun v => v * relative)
      let js2 :=
        match childLinkOf st jn with
        | some c => recurse c js1
        | none => js1
      uniformStep st relative recurse rest js2

/-- Uniform application of a relative multiplier to every joint reached
from a link (claim-side companion of `scaleRec`). -/
def uniformScale (st : RobotState) (relative : ℚ) : Nat → String → List (String × ℚ) → List (String × ℚ)
  | 0, _, js => js
  | fuel + 1, l, js =>
      uniformStep st relative (fun c js2 => uniformScale st relative fuel c js2)
        ((alookup st.linkChildJoints l).getD []) js

/-- Whether the scaling traversal below a link stays inside the tree:
every child joint's child link resolves and is distinct from the root
(so no recursive call re-enters the root branch of `scale`). -/
def cleanTraversal (st : RobotState) (r : String) : Nat → String → Bool
  | 0, _ => true
  | fuel + 1, l =>
      ((alookup st.linkChildJoints l).getD []).all (fun jn =>
        match childLinkOf st jn with
        | some c => if c = r then false else cleanTraversal st r fuel c
        | none => false)

/-- Equality of all structural fields of two states: everything except
the scale factor and the joint-scale map. -/
def sameStruct (a b : RobotState) : Prop :=
  a.links = b.links ∧ a.joints = b.joints ∧ a.linkChildJoints = b.linkChildJoints ∧
    a.linkParentJoint = b.linkParentJoint ∧ a.linksDict = b.linksDict ∧
    a.jointsDict = b.jointsDict ∧ a.adjacency = b.adjacency ∧ a.root = b.root

/-- A link for the concrete models below. -/
def wLinkBase : Link := { name := "base" }

/-- Concrete joint `A`, a revolute child joint of `base`. -/
def wJointA : Joint :=
  { name := "A", jtype := JointType.revolute, parent := "base", child := "lA" }

/-- Concrete joint `B`, a revolute child joint of `base` mimicking `A`
with multiplier `2` and offset `0.1`. -/
def wJointB : Joint :=
  { name := "B", jtype := JointType.revolute, parent := "base", child := "lB",
    mimic := some { joint := "A", multiplier := 2, offset := 1 / 10 } }

/-- Concrete model with joints `A` and `B` below the link `base`. -/
def wModelAB : RobotModel :=
  { name := "w", links := [wLinkBase, { name := "lA" }, { name := "lB" }],
    joints := [wJointA, wJointB] }

/-- Concrete joint `C` with an origin frame, no mimic. -/
def wJointC : Joint :=
  { name := "C", jtype := JointType.revolute, parent := "base", child := "lC",
    origin := some ("F") }

/-- Concrete model with the single joint `C` below `base`. -/
def wModelC : RobotModel :=
  { name := "wc", links := [wLinkBase, { name := "lC" }], joints := [wJointC] }

/-- Degenerate state with two parentless links `a` and `b` and no joints. -/
def wStateTwoRoots : RobotState :=
  { links := [{ name := "a" }, { name := "b" }], joints := [], linkChildJoints := [],
    linkParentJoint := [], linksDict := [], jointsDict := [], adjacency := [],
    root := none, scaleFactor := 1, jointScale := [] }

/-- Concrete rooted chain model `world -j1-> link1`. -/
def wModelChain : RobotModel :=
  { name := "wch", links := [{ name := "world" }, { name := "link1" }],
    joints := [{ name := "j1", jtype := JointType.revolute, parent := "world", child := "link1" }] }

/-- Concrete model with no links at all (hence no root). -/
def wModelNoRoot : RobotModel := { name := "nr", links := [], joints := [] }

/-- Concrete model with two disconnected links and no joints. -/
def wModelTwo : RobotModel :=
  { name := "two", links := [{ name := "a" }, { name := "b" }], joints := [] }

/-- Concrete state holding the single link `a`. -/
def wStateA : RobotState :=
  { links := [{ name := "a" }], joints := [], linkChildJoints := [], linkParentJoint := [],
    linksDict := [], jointsDict := [], adjacency := [], root := none, scaleFactor := 1,
    jointScale := [] }

/-- Concrete joint `j1` connecting `l0` to `l1`. -/
def wJoint1 : Joint :=
  { name := "j1", jtype := JointType.revolute, parent := "l0", child := "l1" }

/-- Concrete rebuilt state of the chain `l0 -j1-> l1` with all caches
populated consistently. -/
def wStateChain : RobotState :=
  { links := [{ name := "l0" }, { name := "l1" }],
    joints := [wJoint1],
    linkChildJoints := [("l0", ["j1"]), ("l1", [])],
    linkParentJoint := [("l1", "j1")],
    linksDict := [("l0", { name := "l0" }), ("l1", { name := "l1" })],
    jointsDict := [("j1", wJoint1)],
    adjacency := [("l0", ["j1"]), ("l1", []), ("j1", ["l1"])],
    root := some "l0",
    scaleFactor := 1,
    jointScale := [("j1", 1)] }

/-- Concrete revolute joint with limit `[1, 2]`. -/
def wJointLim12 : Joint :=
  { name := "jl", jtype := JointType.revolute, parent := "a", child := "b",
    limit := some { lower := 1, upper := 2 } }

/-- Concrete revolute joint with limit `[-1, 1]`. -/
def wJointLimN11 : Joint :=
  { name := "jn", jtype := JointType.revolute, parent := "a", child := "b",
    limit := some { lower := -1, upper := 1 } }

theorem alookup_cons {α : Type} (p : String × α) (rest : List (String × α)) (n : String) :
    alookup (p :: rest) n = if p.1 = n then some p.2 else alookup rest n := rfl

theorem containsKey_cons {α : Type} (p : String × α) (rest : List (String × α)) (n : String) :
    containsKey (p :: rest) n = if p.1 = n then true else containsKey rest n := rfl

theorem updateEntry_cons {α : Type} (p : String × α) (rest : List (String × α)) (k : String) (v : α) :
    updateEntry (p :: rest) k v =
      if p.1 = k then (k, v) :: rest else p :: updateEntry rest k v := rfl

theorem alookup_updateEntry_self {α : Type} (d : List (String × α)) (k : String) (v : α) :
    alookup (updateEntry d k v) k = some v := by
  induction d with
  | nil => simp [updateEntry, alookup]
  | cons p rest ih =>
      rw [updateEntry_cons]
      by_cases h : p.1 = k
      · rw [if_pos h, alookup_cons, if_pos rfl]
      · rw [if_neg h, alookup_cons, if_neg h, ih]

theorem alookup_updateEntry_ne {α : Type} (d : List (String × α)) (k n : String) (v : α)
    (h : n ≠ k) : alookup (updateEntry d k v) n = alookup d n := by
  induction d with
  | nil =>
      rw [show updateEntry ([] : List (String × α)) k v = [(k, v)] from rfl, alookup_cons]
      rw [if_neg (Ne.symm h)]
  | cons p rest ih =>
      rw [updateEntry_cons]
      by_cases hp : p.1 = k
      · rw [if_pos hp, alookup_cons, alookup_cons, if_neg (Ne.symm h)]
        rw [hp, if_neg (Ne.symm h)]
      · rw [if_neg hp, alookup_cons, alookup_cons, ih]

theorem containsKey_updateEntry {α : Type} (d : List (String × α)) (k n : String) (v : α) :
    containsKey (updateEntry d k v) n = true ↔ (n = k ∨ containsKey d n = true) := by
  induction d with
  | nil =>
      rw [show updateEntry ([] : List (String × α)) k v = [(k, v)] from rfl, containsKey_cons]
      by_cases h : n = k
      · simp [h]
      · simp [h, Ne.symm h, containsKey]
  | cons p rest ih =>
      rw [updateEntry_cons]
      by_cases hp : p.1 = k
      · rw [if_pos hp, containsKey_cons, containsKey_cons]
        by_cases hn : n = k
        · simp [hn]
        · simp only [show ¬(k = n) from fun hh => hn hh.symm, if_false, hp]
          simp [hn]
      · rw [if_neg hp, containsKey_cons, containsKey_cons]
        by_cases hn : p.1 = n
        · simp [hn]
        · simp only [hn, if_false]
          exact ih

theorem containsKey_updateDict {α : Type} (d2 d : List (String × α)) (n : String) :
    containsKey (updateDict d d2) n = true ↔
      (containsKey d n = true ∨ containsKey d2 n = true) := by
  induction d2 generalizing d with
  | nil => simp [updateDict, containsKey]
  | cons p rest ih =>
      show containsKey (updateDict (updateEntry d p.1 p.2) rest) n = true ↔ _
      rw [ih, containsKey_updateEntry, containsKey_cons]
      by_cases hn : p.1 = n
      · have hn2 : n = p.1 := hn.symm
        rw [if_pos hn]
        tauto
      · have : ¬(n = p.1) := fun hh => hn hh.symm
        simp [hn, this]

theorem alookup_updateDict_notin {α : Type} (d2 d : List (String × α)) (n : String)
    (h : containsKey d2 n = false) : alookup (updateDict d d2) n = alookup d n := by
  induction d2 generalizing d with
  | nil => simp [updateDict]
  | cons p rest ih =>
      rw [containsKey_cons] at h
      have hp : p.1 ≠ n := by
        intro hh
        rw [if_pos hh] at h
        exact Bool.true_eq_false.mp h
      rw [if_neg hp] at h
      show alookup (updateDict (updateEntry d p.1 p.2) rest) n = _
      rw [ih _ h, alookup_updateEntry_ne _ _ _ _ (Ne.symm hp)]

theorem mem_keysOf_iff_containsKey {α : Type} (d : List (String × α)) (n : String) :
    n ∈ keysOf d ↔ containsKey d n = true := by
  induction d with
  | nil => simp [keysOf, containsKey]
  | cons p rest ih =>
      rw [containsKey_cons]
      by_cases hp : p.1 = n
      · simp [keysOf, hp]
      · rw [if_neg hp]
        simp only [keysOf, List.map_cons, List.mem_cons] at ih ⊢
        rw [ih]
        have : ¬(n = p.1) := fun hh => hp hh.symm
        simp [this]

theorem keysOf_updateEntry {α : Type} (d : List (String × α)) (k : String) (v : α) :
    keysOf (updateEntry d k v) = if containsKey d k then keysOf d else keysOf d ++ [k] := by
  induction d with
  | nil => simp [updateEntry, keysOf, containsKey]
  | cons p rest ih =>
      rw [updateEntry_cons, containsKey_cons]
      by_cases hp : p.1 = k
      · rw [if_pos hp, if_pos (by rw [if_pos hp])]
        simp [keysOf, hp]
      · rw [if_neg hp]
        simp only [keysOf, List.map_cons] at ih ⊢
        by_cases hck : containsKey rest k
        · rw [if_pos (by rw [if_neg hp]; exact hck)]
          rw [ih, if_pos hck]
        · rw [if_neg (by rw [if_neg hp]; simpa using hck)]
          rw [ih, if_neg hck]
          simp

theorem nodup_keysOf_updateEntry {α : Type} (d : List (String × α)) (k : String) (v : α)
    (h : (keysOf d).Nodup) : (keysOf (updateEntry d k v)).Nodup := by
  rw [keysOf_updateEntry]
  split
  · exact h
  · next hck =>
      rw [List.nodup_append]
      refine ⟨h, List.nodup_singleton k, ?_⟩
      intro a ha hb
      rw [List.mem_singleton] at hb
      subst hb
      rw [mem_keysOf_iff_containsKey] at ha
      simp [ha] at hck

theorem nodup_keysOf_updateDict {α : Type} (d2 d : List (String × α))
    (h : (keysOf d).Nodup) : (keysOf (updateDict d d2)).Nodup := by
  induction d2 generalizing d with
  | nil => exact h
  | cons p rest ih => exact ih _ (nodup_keysOf_updateEntry _ _ _ h)

theorem alookup_eraseKey_self {α : Type} (d : List (String × α)) (k : String) :
    alookup (eraseKey d k) k = none := by
  induction d with
  | nil => simp [eraseKey, alookup]
  | cons p rest ih =>
      by_cases hp : p.1 = k
      · simpa [eraseKey, hp] using ih
      · simpa [eraseKey, hp, alookup_cons] using ih

theorem iterJointNames_succ (m : RobotModel) (f : Nat) (l : String) :
    iterJointNames m (f + 1) l =
      (findChildrenJoints m l).map Joint.name ++
        (findChildrenJoints m l).flatMap (fun j => iterJointNames m f j.child) := by
  simp only [iterJointNames, iterJointsFrom, List.map_append]
  rw [List.map_flatMap]

theorem mem_iterJointNames_succ (m : RobotModel) (f : Nat) (l : String) (n : String) :
    n ∈ iterJointNames m (f + 1) l ↔
      n ∈ (findChildrenJoints m l).map Joint.name ∨
        ∃ j ∈ findChildrenJoints m l, n ∈ iterJointNames m f j.child := by
  rw [iterJointNames_succ, List.mem_append, List.mem_flatMap]

theorem computeTStep_containsKey (m : RobotModel) (js : JointState) (fuel : Nat) (pt : Tr)
    (hrec : ∀ l t n, containsKey (computeT m js fuel l t) n = true ↔ n ∈ iterJointNames m fuel l) :
    ∀ (cs : List Joint) (acc : List (String × Tr)) (n : String),
      containsKey (computeTStep js pt (computeT m js fuel) cs acc) n = true ↔
        (containsKey acc n = true ∨ n ∈ cs.map Joint.name ∨
          ∃ j ∈ cs, n ∈ iterJointNames m fuel j.child) := by
  intro cs
  induction cs with
  | nil =>
      intro acc n
      simp [computeTStep]
  | cons j rest ih =>
      intro acc n
      show containsKey (computeTStep js pt _ rest _) n = true ↔ _
      rw [ih, containsKey_updateDict, containsKey_updateEntry, hrec]
      simp only [List.map_cons, List.mem_cons, List.exists_mem_cons_iff]
      constructor
      · rintro (((h | h) | h) | h | ⟨c, hc, hn⟩)
        · exact Or.inr (Or.inl (Or.inl h))
        · exact Or.inl h
        · exact Or.inr (Or.inr ⟨j, Or.inl rfl, h⟩)
        · exact Or.inr (Or.inl (Or.inr h))
        · exact Or.inr (Or.inr ⟨c, Or.inr hc, hn⟩)
      · rintro (h | (h | h) | ⟨c, hcj | hc, hn⟩)
        · exact Or.inl (Or.inl (Or.inr h))
        · exact Or.inl (Or.inl (Or.inl h))
        · exact Or.inr (Or.inl h)
        · subst hcj
          exact Or.inl (Or.inr hn)
        · exact Or.inr (Or.inr ⟨c, hc, hn⟩)

theorem computeT_containsKey (m : RobotModel) (js : JointState) :
    ∀ (fuel : Nat) (l : String) (t : Tr) (n : String),
      containsKey (computeT m js fuel l t) n = true ↔ n ∈ iterJointNames m fuel l := by
  intro fuel
  induction fuel with
  | zero =>
      intro l t n
      simp [computeT, containsKey, iterJointNames, iterJointsFrom]
  | succ f ih =>
      intro l t n
      show containsKey (computeTStep js t (computeT m js f) (findChildrenJoints m l) []) n = true ↔ _
      rw [computeTStep_containsKey m js f t (fun l2 t2 n2 => ih l2 t2 n2),
        mem_iterJointNames_succ]
      simp [containsKey]

theorem nodup_keysOf_computeTStep (js : JointState) (pt : Tr)
    (recurse : String → Tr → List (String × Tr)) :
    ∀ (cs : List Joint) (acc : List (String × Tr)),
      (keysOf acc).Nodup → (keysOf (computeTStep js pt recurse cs acc)).Nodup := by
  intro cs
  induction cs with
  | nil => intro acc h; exact h
  | cons j rest ih =>
      intro acc h
      exact ih _ (nodup_keysOf_updateDict _ _ (nodup_keysOf_updateEntry _ _ _ h))

theorem nodup_keysOf_computeT (m : RobotModel) (js : JointState) (fuel : Nat) (l : String)
    (t : Tr) : (keysOf (computeT m js fuel l t)).Nodup := by
  cases fuel with
  | zero => simp [computeT, keysOf]
  | succ f =>
      exact nodup_keysOf_computeTStep _ _ _ _ _ (by simp [keysOf])

theorem computeTStep_lookup_preserved (m : RobotModel) (js : JointState) (fuel : Nat) (pt : Tr) :
    ∀ (cs : List Joint) (acc : List (String × Tr)) (k : String) (v : Tr),
      alookup acc k = some v →
      (∀ c ∈ cs, c.name ≠ k ∧ k ∉ iterJointNames m fuel c.child) →
      alookup (computeTStep js pt (computeT m js fuel) cs acc) k = some v := by
  intro cs
  induction cs with
  | nil => intro acc k v h _; exact h
  | cons c rest ih =>
      intro acc k v h hall
      obtain ⟨hname, hsub⟩ := hall c (List.mem_cons_self c rest)
      show alookup (computeTStep js pt _ rest _) k = some v
      apply ih
      · cases hcc : containsKey (computeT m js fuel c.child (childTransformation js pt c)) k with
        | true => exact absurd ((computeT_containsKey m js fuel c.child _ k).mp hcc) hsub
        | false =>
            rw [alookup_updateDict_notin _ _ _ hcc,
              alookup_updateEntry_ne _ _ _ _ (Ne.symm hname)]
            exact h
      · intro c2 hc2
        exact hall c2 (List.mem_cons_of_mem _ hc2)

theorem computeTStep_lookup_found (m : RobotModel) (js : JointState) (fuel : Nat) (pt : Tr) :
    ∀ (cs : List Joint) (acc : List (String × Tr)) (j : Joint),
      j ∈ cs → (cs.map Joint.name).Nodup →
      (∀ c ∈ cs, j.name ∉ iterJointNames m fuel c.child) →
      alookup (computeTStep js pt (computeT m js fuel) cs acc) j.name =
        some (childTransformation js pt j) := by
  intro cs
  induction cs with
  | nil => intro acc j hj; exact absurd hj (List.not_mem_nil j)
  | cons c rest ih =>
      intro acc j hj hnd hsub
      rw [List.mem_cons] at hj
      rw [List.map_cons, List.nodup_cons] at hnd
      obtain ⟨hcn, hndrest⟩ := hnd
      cases hj with
      | inl heq =>
          subst heq
          show alookup (computeTStep js pt _ rest _) j.name = _
          apply computeTStep_lookup_preserved
          · cases hcc : containsKey (computeT m js fuel j.child (childTransformation js pt j)) j.name with
            | true =>
                exact absurd ((computeT_containsKey m js fuel j.child _ j.name).mp hcc)
                  (hsub j (List.mem_cons_self j rest))
            | false =>
                rw [alookup_updateDict_notin _ _ _ hcc]
                exact alookup_updateEntry_self _ _ _
          · intro c2 hc2
            refine ⟨fun hh => hcn ?_, hsub c2 (List.mem_cons_of_mem _ hc2)⟩
            rw [← hh]
            exact List.mem_map_of_mem Joint.name hc2
      | inr hmem =>
          show alookup (computeTStep js pt _ rest _) j.name = _
          exact ih _ j hmem hndrest (fun c2 hc2 => hsub c2 (List.mem_cons_of_mem _ hc2))

theorem computeT_lookup_child (m : RobotModel) (js : JointState) (fuel : Nat)
    (linkName : String) (pt : Tr) (j : Joint)
    (hj : j ∈ findChildrenJoints m linkName)
    (hnd : (iterJointNames m (fuel + 1) linkName).Nodup) :
    alookup (computeT m js (fuel + 1) linkName pt) j.name =
      some (childTransformation js pt j) := by
  rw [iterJointNames_succ, List.nodup_append] at hnd
  obtain ⟨hnd1, _, hdisj⟩ := hnd
  show alookup (computeTStep js pt (computeT m js fuel) (findChildrenJoints m linkName) []) j.name = _
  apply computeTStep_lookup_found m js fuel pt _ _ j hj hnd1
  intro c hc hmem
  exact hdisj (List.mem_map_of_mem Joint.name hj) (List.mem_flatMap.mpr ⟨c, hc, hmem⟩)

/-- Claim C1: `compute_transformations` resolves each child joint's position
with the explicit joint-state value for the joint's own name taking
precedence, else the mimic formula `multiplier * joint_state[mimic.joint]
+ offset` when the mimic target is present in the joint state; the
recorded transformation is the parent transformation composed with the
joint's local transformation at the resolved position. -/
theorem c1_position_precedence (m : RobotModel) (js : JointState) (fuel : Nat)
    (linkName : String) (pt : Tr) (j : Joint)
    (hj : j ∈ findChildrenJoints m linkName)
    (hnd : (iterJointNames m (fuel + 1) linkName).Nodup) :
    (containsKey js j.name = true →
        alookup (computeT m js (fuel + 1) linkName pt) j.name =
          some (trMul pt (calculateTransformation j (jsGet js j.name)))) ∧
      ∀ mm, j.mimic = some mm → containsKey js j.name = false →
        containsKey js mm.joint = true →
        alookup (computeT m js (fuel + 1) linkName pt) j.name =
          some (trMul pt (calculateTransformation j (Mimic.calculatePosition mm (jsGet js mm.joint)))) := by
  have hlook := computeT_lookup_child m js fuel linkName pt j hj hnd
  constructor
  · intro hck
    rw [hlook]
    simp [childTransformation, hck]
  · intro mm hmm hck hcm
    rw [hlook]
    simp [childTransformation, hck, hmm, hcm]

/-- Witness for C1: in the concrete model, joint `B` mimics `A` with
multiplier `2` and offset `0.1`; with the joint state `{A: 3}` the
position used for `B` is `6.1`. -/
theorem c1_position_precedence_witness :
    alookup (computeT wModelAB ([("A", 3)]) 2 ("base") trIdentity) ("B") =
      some (trMul trIdentity (calculateTransformation wJointB (61 / 10))) := by
  have hj : wJointB ∈ findChildrenJoints wModelAB ("base") := by
    unfold findChildrenJoints findChildrenJointsL
    exact List.mem_filter.mpr ⟨by simp [wModelAB], by decide⟩
  have h := (c1_position_precedence wModelAB ([("A", 3)]) 1 ("base") trIdentity wJointB
    hj (by decide)).2 { joint := "A", multiplier := 2, offset := 1 / 10 }
    rfl (by decide) (by decide)
  have e : Mimic.calculatePosition { joint := "A", multiplier := 2, offset := 1 / 10 }
      (jsGet ([("A", 3)]) ("A")) = 61 / 10 := by
    norm_num [Mimic.calculatePosition, jsGet, alookup]
  rw [e] at h
  have ename : wJointB.name = "B" := rfl
  rw [← ename]
  exact h

/-- Counterexample for C2: in the concrete model the joint `C` carries an
origin frame, is absent from the (empty) joint state and has no mimic;
`compute_transformations` records the bare parent transformation for it,
not the parent composed with the origin-only local transform as the claim
states. -/
theorem c2_counterexample :
    alookup (computeT wModelC ([]) 1 ("base") trIdentity) ("C") = some trIdentity ∧
      some trIdentity ≠ some (trMul trIdentity (originOnlyTransform wJointC)) := by
  constructor
  · decide
  · decide

/-- Claim C2 (amended): for a child joint whose name is absent from the
joint state and whose mimic (if any) has no target in the joint state,
the transformation recorded by `compute_transformations` is the parent
transformation unchanged - the joint's own contribution is the identity,
not its origin-only transform. -/
theorem c2_amended_passthrough (m : RobotModel) (js : JointState) (fuel : Nat)
    (linkName : String) (pt : Tr) (j : Joint)
    (hj : j ∈ findChildrenJoints m linkName)
    (hnd : (iterJointNames m (fuel + 1) linkName).Nodup)
    (hck : containsKey js j.name = false)
    (hmm : ∀ mm, j.mimic = some mm → containsKey js mm.joint = false) :
    alookup (computeT m js (fuel + 1) linkName pt) j.name = some pt := by
  rw [computeT_lookup_child m js fuel linkName pt j hj hnd, childTransformation]
  rw [if_neg (by simp [hck])]
  cases hjm : j.mimic with
  | none => rfl
  | some mm => simp [hmm mm hjm]

/-- Witness for the amended C2: the joint `C` of the concrete model is
unconfigured and its recorded transformation equals the parent
transformation. -/
theorem c2_amended_passthrough_witness :
    alookup (computeT wModelC ([]) 1 ("base") trIdentity) ("C") = some trIdentity := by
  have hj : wJointC ∈ findChildrenJoints wModelC ("base") := by
    unfold findChildrenJoints findChildrenJointsL
    exact List.mem_filter.mpr ⟨by simp [wModelC], by decide⟩
  have h := c2_amended_passthrough wModelC ([]) 0 ("base") trIdentity wJointC
    hj (by decide) (by decide) (fun mm hmm => nomatch hmm)
  exact h

/-- Claim C3: the mapping returned by `compute_transformations` has
pairwise-distinct keys and contains a key exactly for every joint of the
subtree traversal (`iter_joints`) rooted at the starting link; being a
pure function of the model, the joint state and the starting link, the
result is deterministic and independent of traversal order. -/
theorem c3_subtree_entries (m : RobotModel) (js : JointState) (fuel : Nat)
    (linkName : String) (pt : Tr) :
    (keysOf (computeT m js fuel linkName pt)).Nodup ∧
      ∀ n, containsKey (computeT m js fuel linkName pt) n = true ↔
        n ∈ iterJointNames m fuel linkName :=
  ⟨nodup_keysOf_computeT m js fuel linkName pt,
    fun n => computeT_containsKey m js fuel linkName pt n⟩

theorem zeroValue_eq_spec (j : Joint) : zeroValue j = specZeroValue j := by
  cases hl : j.limit with
  | none => simp [zeroValue, specZeroValue, hl]
  | some lim =>
      simp only [zeroValue, specZeroValue, hl]
      split_ifs with h1 h2 h3
      · rfl
      · exact absurd ⟨h1.2, h1.1⟩ h2
      · exact absurd ⟨h3.2, h3.1⟩ h1
      · ring

/-- Claim C8: `zero_configuration` assigns to each configurable joint the
value `0` when the joint has no limit or zero lies within
`[lower, upper]`, otherwise the midpoint `(lower + upper) / 2`; in
particular a joint with limit `[1, 2]` gets `1.5` and a joint with limit
`[-1, 1]` gets `0`. -/
theorem c8_zero_configuration :
    (∀ (m : RobotModel) (fuel : Nat),
        (zeroConfiguration m fuel).values = (getConfigurableJoints m fuel).map specZeroValue) ∧
      zeroValue wJointLim12 = 3 / 2 ∧ zeroValue wJointLimN11 = 0 := by
  refine ⟨fun m fuel => ?_, by norm_num [zeroValue, wJointLim12], by norm_num [zeroValue, wJointLimN11]⟩
  show (getConfigurableJoints m fuel).map zeroValue = _
  exact List.map_congr_left (fun j _ => zeroValue_eq_spec j)

theorem getLast_cons_or (xs : List String) : ∀ a : String,
    (a :: xs).getLast? = Option.or (xs.getLast?) (some a) := by
  induction xs with
  | nil => intro a; simp [Option.or]
  | cons x xs2 ih =>
      intro a
      rw [List.getLast?_cons_cons, ih x]
      cases h : xs2.getLast? <;> simp [Option.or]

theorem rootComputed_eq (joints : List Joint) : ∀ (links : List Link) (init : Option String),
    rootComputed joints links init =
      Option.or
        (((links.filter (fun l => (findParentJointL joints l.name).isNone)).map Link.name).getLast?)
        init := by
  intro links
  induction links with
  | nil => intro init; simp [rootComputed, Option.or]
  | cons l rest ih =>
      intro init
      cases hp : (findParentJointL joints l.name).isNone with
      | true =>
          have step : rootComputed joints (l :: rest) init = rootComputed joints rest (some l.name) := by
            simp [rootComputed, List.foldl_cons, Option.isNone_iff_eq_none.mp hp]
          rw [step, ih, List.filter_cons_of_pos (by exact hp), List.map_cons, getLast_cons_or]
          cases h2 : ((rest.filter (fun l2 => (findParentJointL joints l2.name).isNone)).map Link.name).getLast? <;>
            simp [Option.or]
      | false =>
          have hp2 : ¬(findParentJointL joints l.name = none) := by
            rw [← Option.isNone_iff_eq_none]
            simp [hp]
          have step : rootComputed joints (l :: rest) init = rootComputed joints rest init := by
            simp [rootComputed, List.foldl_cons, hp2]
          rw [step, ih, List.filter_cons_of_neg (by simp [hp])]

/-- Counterexample for C4: on a degenerate state with two parentless links
the rebuild pass succeeds silently (nothing is reported), both links
qualify as root, and the last one encountered is recorded. -/
theorem c4_counterexample :
    rebuildRun wStateTwoRoots = Except.ok (rebuildState wStateTwoRoots) ∧
      (wStateTwoRoots.links.filter
          (fun l => (findParentJointL wStateTwoRoots.joints l.name).isNone)).length = 2 ∧
      (rebuildState wStateTwoRoots).root = some ("b") :=
  ⟨rfl, by decide, by decide⟩

/-- Claim C4 (amended): the reported root is the last parentless link in
list order (the multi-root case is silently accepted, with no error
reported); when the link list has exactly one parentless link, that link
is unique and equals the reported root. -/
theorem c4_amended_root (st : RobotState) (L : Link)
    (h : st.links.filter (fun l => (findParentJointL st.joints l.name).isNone) = [L]) :
    (rebuildState st).root = some L.name ∧
      (∀ l2 ∈ st.links, (findParentJointL st.joints l2.name).isNone = true → l2 = L) ∧
      rebuildRun st = Except.ok (rebuildState st) := by
  refine ⟨?_, ?_, rfl⟩
  · show rootComputed st.joints st.links st.root = some L.name
    rw [rootComputed_eq, h]
    simp [Option.or]
  · intro l2 hl2 hp
    have hmem : l2 ∈ st.links.filter (fun l => (findParentJointL st.joints l.name).isNone) :=
      List.mem_filter.mpr ⟨hl2, hp⟩
    rw [h] at hmem
    exact List.mem_singleton.mp hmem

/-- Witness for the amended C4: the consistent chain state has exactly one
parentless link and the rebuilt root equals it. -/
theorem c4_amended_root_witness : (rebuildState wStateChain).root = some ("l0") :=
  (c4_amended_root wStateChain { name := "l0" } (by decide)).1

/-- Claim C6: `iter_chain` fails with the named error "No root link found"
when no start is given and the model has no root, and with "No chain
found between the specified element" when the path search finds no path
between the resolved endpoints; it never yields a default chain. -/
theorem c6_chain_errors :
    (∀ (m : RobotModel) (e : Option String), rootLink m = none →
        iterChain m none e = Except.error ("No root link found")) ∧
      ∀ (m : RobotModel) (s e : String), s ≠ "" → e ≠ "" →
        findPath m (chainFuel m) s (some e) = none →
        iterChain m (some s) (some e) =
          Except.error ("No chain found between the specified element") := by
  constructor
  · intro m e hr
    simp [iterChain, strFalsy, hr]
  · intro m s e hs he hp
    simp [iterChain, strFalsy, hs, he, hp]

/-- Witness for C6: a model with no links reports the missing root, and a
model of two disconnected links reports the missing chain. -/
theorem c6_chain_errors_witness :
    iterChain wModelNoRoot none none = Except.error ("No root link found") ∧
      iterChain wModelTwo (some ("a")) (some ("b")) =
        Except.error ("No chain found between the specified element") :=
  ⟨c6_chain_errors.1 wModelNoRoot none (by decide),
    c6_chain_errors.2 wModelTwo ("a") ("b") (by decide) (by decide) (by decide)⟩

/-- Claim C7: `add_link` with an already-used link name raises the
structural-conflict `ValueError` before any mutation, carrying the
unchanged state, so the link count after the failed call equals the link
count before it. -/
theorem c7_duplicate_link (st : RobotState) (name : String)
    (h : name ∈ st.links.map Link.name) :
    addLink st name = Except.error (("ValueError: Link name already used in chain."), st) := by
  simp [addLink, h]

/-- Witness for C7: adding the link name `a` to a state already holding a
link `a` fails and returns the unchanged state. -/
theorem c7_duplicate_link_witness :
    addLink wStateA ("a") = Except.error (("ValueError: Link name already used in chain."), wStateA) :=
  c7_duplicate_link wStateA ("a") (by decide)

/-- Claim C10: after `remove_joint` succeeds for an existing joint, the
joint's child link is removed from the name-lookup dictionary (so
`get_link_by_name` returns the not-found sentinel) while the same child
link still remains an element of the `links` list, and the child link's
parent-joint back-reference still points at the removed joint. -/
theorem c10_remove_joint (st : RobotState) (name : String) (J : Joint) (PL : Link)
    (h1 : alookup st.jointsDict name = some J)
    (h2 : alookup st.linksDict J.parent = some PL)
    (h3 : containsKey st.linksDict J.child = true)
    (h4 : containsKey st.adjacency name = true)
    (h5 : ∃ l ∈ st.links, l.name = J.child)
    (h6 : alookup st.linkParentJoint J.child = some name) :
    ∃ st2, removeJoint st name = Except.ok st2 ∧
      getLinkByNameSt st2 J.child = none ∧
      (∃ l ∈ st2.links, l.name = J.child) ∧
      alookup st2.linkParentJoint J.child = some name := by
  have h4b : ∀ v : List String, containsKey (updateEntry st.adjacency PL.name v) name = true :=
    fun v => (containsKey_updateEntry st.adjacency PL.name name v).mpr (Or.inr h4)
  have hrun : removeJoint st name = Except.ok
      { st with
        joints := st.joints.filter (fun j => decide (j.name ≠ name)),
        linkChildJoints := updateEntry st.linkChildJoints PL.name
          (((alookup st.linkChildJoints PL.name).getD []).filter (fun n2 => decide (n2 ≠ name))),
        linksDict := eraseKey st.linksDict J.child,
        jointsDict := eraseKey st.jointsDict name,
        adjacency := eraseKey (updateEntry st.adjacency PL.name
          (((alookup st.linkChildJoints PL.name).getD []).filter (fun n2 => decide (n2 ≠ name)))) name } := by
    simp only [removeJoint, h1, h2, h3, h4b, if_true]
  refine ⟨_, hrun, ?_, ?_, ?_⟩
  · show alookup (eraseKey st.linksDict J.child) J.child = none
    exact alookup_eraseKey_self _ _
  · exact h5
  · exact h6

/-- Witness for C10: removing `j1` from the consistent chain state leaves
`l1` in the links list with its stale back-reference to `j1`, while the
name lookup for `l1` returns the not-found sentinel. -/
theorem c10_remove_joint_witness :
    ∃ st2, removeJoint wStateChain ("j1") = Except.ok st2 ∧
      getLinkByNameSt st2 (wJoint1.child) = none ∧
      (∃ l ∈ st2.links, l.name = wJoint1.child) ∧
      alookup st2.linkParentJoint (wJoint1.child) = some ("j1") :=
  c10_remove_joint wStateChain ("j1") wJoint1 { name := "l0" }
    (by decide) (by decide) (by decide) (by decide) (by decide) (by decide)

theorem findPathList_sound (r : String → Option (List String)) :
    ∀ (l : List String) (q : List String),
      findPathList r l = some q → ∃ nb ∈ l, r nb = some q := by
  intro l
  induction l with
  | nil => intro q h; simp [findPathList] at h
  | cons x rest ih =>
      intro q h
      simp only [findPathList] at h
      cases hx : r x with
      | some p2 =>
          rw [hx] at h
          simp only [] at h
          cases h
          exact ⟨x, List.mem_cons_self x rest, hx⟩
      | none =>
          rw [hx] at h
          simp only [] at h
          obtain ⟨nb, hnb, hr⟩ := ih q h
          exact ⟨nb, List.mem_cons_of_mem _ hnb, hr⟩

theorem findPathList_isSome (r : String → Option (List String)) :
    ∀ (l : List String) (nb : String), nb ∈ l → (r nb).isSome = true →
      (findPathList r l).isSome = true := by
  intro l
  induction l with
  | nil => intro nb h; simp at h
  | cons x rest ih =>
      intro nb hmem hsome
      cases hx : r x with
      | some p => simp [findPathList, hx]
      | none =>
          simp only [findPathList, hx]
          rw [List.mem_cons] at hmem
          cases hmem with
          | inl heq =>
              subst heq
              rw [hx] at hsome
              exact absurd hsome (by simp)
          | inr hmem2 => exact ih nb hmem2 hsome

theorem findPath_sound (m : RobotModel) (goal : Option String) :
    ∀ (fuel : Nat) (s : String) (p : List String),
      findPath m fuel s goal = some p →
      p.head? = some s ∧ p.getLast? = goal ∧ List.Chain' (fun a b => b ∈ adjNbrs m a) p := by
  intro fuel
  induction fuel with
  | zero =>
      intro s p h
      simp only [findPath] at h
      split at h
      · next hg =>
          cases h
          exact ⟨rfl, by rw [hg]; simp, List.chain'_singleton s⟩
      · next hg => simp at h
  | succ f ih =>
      intro s p h
      simp only [findPath] at h
      split at h
      · next hg =>
          cases h
          exact ⟨rfl, by rw [hg]; simp, List.chain'_singleton s⟩
      · next hg =>
          rw [Option.map_eq_some'] at h
          obtain ⟨q, hq, rfl⟩ := h
          obtain ⟨nb, hnb, hrec⟩ := findPathList_sound _ _ _ hq
          obtain ⟨hhead, hlast, hchain⟩ := ih nb q hrec
          cases q with
          | nil => simp at hhead
          | cons x q2 =>
              have hx : x = nb := by simpa using hhead
              subst hx
              refine ⟨rfl, ?_, ?_⟩
              · rw [List.getLast?_cons_cons]
                exact hlast
              · rw [List.chain'_cons]
                exact ⟨hnb, hchain⟩

theorem pathTo_length_pos (m : RobotModel) {s e : String} {p : List String}
    (h : PathTo m s e p) : 0 < p.length := by
  cases h <;> simp

theorem findPath_complete (m : RobotModel) {s e : String} {p : List String}
    (h : PathTo m s e p) :
    ∀ fuel, p.length ≤ fuel + 1 → (findPath m fuel s (some e)).isSome = true := by
  induction h with
  | refl e2 =>
      intro fuel _
      cases fuel <;> simp [findPath]
  | @step a b e2 p2 hedge hp ih =>
      intro fuel hlen
      by_cases hg : (some e2 : Option String) = some a
      · cases fuel <;> simp [findPath, hg]
      · cases fuel with
        | zero =>
            exfalso
            have hpos := pathTo_length_pos m hp
            rw [List.length_cons] at hlen
            omega
        | succ f =>
            simp only [findPath, if_neg hg]
            have hlen2 : p2.length ≤ f + 1 := by
              simp at hlen
              omega
            have hs := findPathList_isSome (fun nb => findPath m f nb (some e2))
              (adjNbrs m a) b hedge (ih f hlen2)
            obtain ⟨q, hq⟩ := Option.isSome_iff_exists.mp hs
            rw [hq]
            rfl

theorem adjNbrs_flip (m : RobotModel) (h : NamesOK m) {a b : String}
    (hb : b ∈ adjNbrs m a) : isLinkName m b = !(isLinkName m a) := by
  unfold adjNbrs adjLookup at hb
  cases hj : m.joints.reverse.find? (fun j => decide (j.name = a)) with
  | some j =>
      rw [hj] at hb
      simp at hb
      subst hb
      have hjm : j ∈ m.joints := List.mem_reverse.mp (List.mem_of_find?_eq_some hj)
      have hja : j.name = a := by simpa using List.find?_some hj
      have hchild : j.child ∈ linkNames m := h.1 j hjm
      have hajoint : a ∈ jointNames m := by
        rw [← hja]
        exact List.mem_map_of_mem Joint.name hjm
      have halink : a ∉ linkNames m := fun hc => h.2 a hc hajoint
      rw [show isLinkName m j.child = true from by simp [isLinkName, hchild],
        show isLinkName m a = false from by simp [isLinkName, halink]]
      rfl
  | none =>
      rw [hj] at hb
      cases hl : m.links.reverse.find? (fun l => decide (l.name = a)) with
      | some l =>
          rw [hl] at hb
          simp at hb
          obtain ⟨jc, hjc, rfl⟩ := hb
          have hla : l.name = a := by simpa using List.find?_some hl
          have hlm : l ∈ m.links := List.mem_reverse.mp (List.mem_of_find?_eq_some hl)
          have halink : a ∈ linkNames m := by
            rw [← hla]
            exact List.mem_map_of_mem Link.name hlm
          have hjc2 : jc ∈ m.joints.filter (fun j => decide (j.parent = l.name)) := hjc
          have hjcm : jc ∈ m.joints := (List.mem_filter.mp hjc2).1
          have hbjoint : jc.name ∈ jointNames m := List.mem_map_of_mem Joint.name hjcm
          have hbnotlink : jc.name ∉ linkNames m := fun hc => h.2 _ hc hbjoint
          rw [show isLinkName m jc.name = false from by simp [isLinkName, hbnotlink],
            show isLinkName m a = true from by simp [isLinkName, halink]]
          rfl
      | none =>
          rw [hl] at hb
          simp at hb

theorem altLJ_of_chain (m : RobotModel) (h : NamesOK m) :
    ∀ (p : List String) (b : Bool), List.Chain' (fun a c => c ∈ adjNbrs m a) p →
      (∀ x, p.head? = some x → isLinkName m x = b) → altLJ m b p = true := by
  intro p
  induction p with
  | nil => intro b _ _; rfl
  | cons x rest ih =>
      intro b hchain hhead
      have hx : isLinkName m x = b := hhead x rfl
      cases rest with
      | nil => simp [altLJ, hx]
      | cons y rest2 =>
          rw [List.chain'_cons] at hchain
          obtain ⟨hxy, hchain2⟩ := hchain
          have hy : isLinkName m y = !b := by rw [adjNbrs_flip m h hxy, hx]
          have ihr := ih (!b) hchain2 (fun z hz => by
            have hzy : y = z := by simpa using hz
            rw [← hzy]
            exact hy)
          simp only [altLJ, Bool.not_not] at ihr
          simp [hx, hy] at ihr
          simp [altLJ, hx, hy, ihr]

theorem foldl_root_mem (m : RobotModel) :
    ∀ (links : List Link) (acc : Option Link) (r : Link),
      links.foldl (fun acc l => if (findParentJoint m l.name).isNone then some l else acc) acc =
        some r →
      r ∈ links ∨ acc = some r := by
  intro links
  induction links with
  | nil => intro acc r h; exact Or.inr h
  | cons l rest ih =>
      intro acc r h
      rw [List.foldl_cons] at h
      cases ih _ r h with
      | inl hm => exact Or.inl (List.mem_cons_of_mem _ hm)
      | inr he =>
          split at he
          · cases he
            exact Or.inl (List.mem_cons_self _ _)
          · exact Or.inr he

theorem rootLink_mem (m : RobotModel) (r : Link) (h : rootLink m = some r) : r ∈ m.links := by
  rcases foldl_root_mem m m.links none r h with hm | he
  · exact hm
  · exact absurd he (by simp)

/-- Claim C5: for a well-formed tree model, the chain query between the
root link's name and the name of a childless link `L` (for which a path
exists in the adjacency, as in any connected tree) returns a sequence
that starts with the root's name, ends with `L`'s name, and strictly
alternates link names and joint names. -/
theorem c5_chain (m : RobotModel) (r L : Link) (p0 : List String)
    (h1 : NamesOK m) (h2 : rootLink m = some r) (h3 : L.name ≠ "")
    (h4 : findChildrenJoints m L.name = [])
    (h5 : PathTo m r.name L.name p0) (h6 : p0.length ≤ chainFuel m + 1) :
    ∃ p, iterChain m (some r.name) (some L.name) = Except.ok p ∧
      p.head? = some r.name ∧ p.getLast? = some L.name ∧ altLJ m true p = true := by
  have hsome := findPath_complete m h5 (chainFuel m) h6
  obtain ⟨p, hp⟩ := Option.isSome_iff_exists.mp hsome
  obtain ⟨hhead, hlast, hchain⟩ := findPath_sound m (some L.name) (chainFuel m) r.name p hp
  refine ⟨p, ?_, hhead, hlast, ?_⟩
  · have hstart :
        (if strFalsy (some r.name) then (rootLink m).map Link.name else some r.name) =
          some r.name := by
      by_cases hrn : r.name = ""
      · simp [strFalsy, hrn, h2]
      · simp [strFalsy, hrn]
    have hne : p.isEmpty = false := by
      cases p
      · simp at hhead
      · rfl
    simp only [iterChain]
    rw [hstart]
    simp [strFalsy, h3, hp, hne]
  · refine altLJ_of_chain m h1 p true hchain (fun x hx => ?_)
    have hxr : x = r.name := Option.some.inj (hx.symm.trans hhead)
    rw [hxr]
    simp only [isLinkName, decide_eq_true_eq]
    exact List.mem_map_of_mem Link.name (rootLink_mem m r h2)

/-- Witness for C5: in the chain model `world -j1-> link1` the chain query
from the root to the childless link returns the alternating sequence. -/
theorem c5_chain_witness :
    ∃ p, iterChain wModelChain (some ("world")) (some ("link1")) = Except.ok p ∧
      p.head? = some ("world") ∧ p.getLast? = some ("link1") ∧
      altLJ wModelChain true p = true := by
  have hpath : PathTo wModelChain ("world") ("link1") (["world", "j1", "link1"]) :=
    PathTo.step (by decide) (PathTo.step (by decide) (PathTo.refl ("link1")))
  exact c5_chain wModelChain { name := "world" } { name := "link1" } (["world", "j1", "link1"])
    (by constructor <;> decide) (by decide) (by decide) (by decide) hpath (by decide)

theorem sameStruct_refl (a : RobotState) : sameStruct a a :=
  ⟨rfl, rfl, rfl, rfl, rfl, rfl, rfl, rfl⟩

theorem sameStruct_trans {a b c : RobotState} (h1 : sameStruct a b) (h2 : sameStruct b c) :
    sameStruct a c := by
  obtain ⟨e1, e2, e3, e4, e5, e6, e7, e8⟩ := h1
  obtain ⟨f1, f2, f3, f4, f5, f6, f7, f8⟩ := h2
  exact ⟨e1.trans f1, e2.trans f2, e3.trans f3, e4.trans f4, e5.trans f5, e6.trans f6,
    e7.trans f7, e8.trans f8⟩

theorem sameStruct_jointScale (st : RobotState) (js : List (String × ℚ)) :
    sameStruct { st with jointScale := js } st :=
  ⟨rfl, rfl, rfl, rfl, rfl, rfl, rfl, rfl⟩

theorem sameStruct_scaleFactor (st : RobotState) (q : ℚ) :
    sameStruct { st with scaleFactor := q } st :=
  ⟨rfl, rfl, rfl, rfl, rfl, rfl, rfl, rfl⟩

theorem scaleStep_struct (rel : ℚ) (recurse : RobotState → Option String → RobotState)
    (hrec : ∀ s lo, sameStruct (recurse s lo) s) :
    ∀ (cs : List String) (st : RobotState), sameStruct (scaleStep rel recurse cs st) st := by
  intro cs
  induction cs with
  | nil => intro st; exact sameStruct_refl st
  | cons jn rest ih =>
      intro st
      exact sameStruct_trans (sameStruct_trans (ih _) (hrec _ _)) (sameStruct_jointScale st _)

theorem scaleRec_struct : ∀ (fuel : Nat) (st : RobotState) (factor : ℚ) (lo : Option String),
    sameStruct (scaleRec fuel st factor lo) st := by
  intro fuel
  induction fuel with
  | zero => intro st factor lo; exact sameStruct_refl st
  | succ f ih =>
      intro st factor lo
      simp only [scaleRec]
      split
      · exact sameStruct_refl st
      · exact sameStruct_trans (sameStruct_scaleFactor _ _)
          (scaleStep_struct _ _ (fun s lo2 => ih s _ lo2) _ st)

theorem childLinkOf_congr {a b : RobotState} (h : sameStruct a b) (jn : String) :
    childLinkOf a jn = childLinkOf b jn := by
  obtain ⟨-, -, -, -, e5, e6, -, -⟩ := h
  unfold childLinkOf
  rw [e6, e5]

theorem cleanTraversal_congr {a b : RobotState} (h : sameStruct a b) (r : String) :
    ∀ (fuel : Nat) (l : String), cleanTraversal a r fuel l = cleanTraversal b r fuel l := by
  intro fuel
  induction fuel with
  | zero => intro l; rfl
  | succ f ih =>
      intro l
      unfold cleanTraversal
      rw [h.2.2.1]
      congr 1
      funext jn
      rw [childLinkOf_congr h jn]
      cases hc : childLinkOf b jn with
      | none => rfl
      | some c =>
          show (if c = r then false else cleanTraversal a r f c) =
            (if c = r then false else cleanTraversal b r f c)
          rw [ih c]

theorem cleanTraversal_children (st0 : RobotState) (r : String) (f : Nat) (l : String)
    (hclean : cleanTraversal st0 r (f + 1) l = true) :
    ∀ jn ∈ (alookup st0.linkChildJoints l).getD [],
      ∃ c, childLinkOf st0 jn = some c ∧ c ≠ r ∧ cleanTraversal st0 r f c = true := by
  intro jn hjn
  unfold cleanTraversal at hclean
  rw [List.all_eq_true] at hclean
  have h2 := hclean jn hjn
  cases hc : childLinkOf st0 jn with
  | none =>
      simp [hc] at h2
  | some c =>
      simp only [hc] at h2
      by_cases hcr : c = r
      · simp [hcr] at h2
      · rw [if_neg hcr] at h2
        exact ⟨c, rfl, hcr, h2⟩

theorem scaleStep_sim (st0 : RobotState) (r : String) (rel : ℚ) (f : Nat)
    (hroot : st0.root = some r)
    (hrec : ∀ (l : String) (st : RobotState), sameStruct st st0 → l ≠ r →
      cleanTraversal st0 r f l = true →
      (scaleRec f st rel (some l)).jointScale = uniformScale st0 rel f l st.jointScale) :
    ∀ (cs : List String) (st : RobotState), sameStruct st st0 →
      (∀ jn ∈ cs,
        ∃ c, childLinkOf st0 jn = some c ∧ c ≠ r ∧ cleanTraversal st0 r f c = true) →
      (scaleStep rel (fun s lo => scaleRec f s rel lo) cs st).jointScale =
        uniformStep st0 rel (fun c js2 => uniformScale st0 rel f c js2) cs st.jointScale := by
  intro cs
  induction cs with
  | nil => intro st hss hall; rfl
  | cons jn rest ih =>
      intro st hss hall
      obtain ⟨c, hc, hcr, hclean⟩ := hall jn (List.mem_cons_self jn rest)
      have hss1 : sameStruct
          ({ st with jointScale := mapEntry st.jointScale jn (fun v => v * rel) }) st0 :=
        sameStruct_trans (sameStruct_jointScale st _) hss
      have hcl1 : childLinkOf
          ({ st with jointScale := mapEntry st.jointScale jn (fun v => v * rel) }) jn = some c := by
        rw [childLinkOf_congr hss1 jn]
        exact hc
      have hunfold : scaleStep rel (fun s lo => scaleRec f s rel lo) (jn :: rest) st =
          scaleStep rel (fun s lo => scaleRec f s rel lo) rest
            (scaleRec f { st with jointScale := mapEntry st.jointScale jn (fun v => v * rel) } rel
              (childLinkOf { st with jointScale := mapEntry st.jointScale jn (fun v => v * rel) } jn)) :=
        rfl
      have hunfold2 : uniformStep st0 rel (fun c2 js2 => uniformScale st0 rel f c2 js2)
            (jn :: rest) st.jointScale =
          uniformStep st0 rel (fun c2 js2 => uniformScale st0 rel f c2 js2) rest
            (match childLinkOf st0 jn with
              | some c2 => uniformScale st0 rel f c2 (mapEntry st.jointScale jn (fun v => v * rel))
              | none => mapEntry st.jointScale jn (fun v => v * rel)) :=
        rfl
      rw [hunfold, hunfold2, hcl1, hc]
      have hst2ss : sameStruct
          (scaleRec f { st with jointScale := mapEntry st.jointScale jn (fun v => v * rel) } rel
            (some c)) st0 :=
        sameStruct_trans (scaleRec_struct f _ rel _) hss1
      have hst2js :
          (scaleRec f { st with jointScale := mapEntry st.jointScale jn (fun v => v * rel) } rel
            (some c)).jointScale =
            uniformScale st0 rel f c
              ({ st with jointScale := mapEntry st.jointScale jn (fun v => v * rel) }).jointScale :=
        hrec c _ hss1 hcr hclean
      rw [ih _ hst2ss (fun jn2 hjn2 => hall jn2 (List.mem_cons_of_mem _ hjn2)), hst2js]

theorem scaleRec_uniform (st0 : RobotState) (r : String) (rel : ℚ)
    (hroot : st0.root = some r) :
    ∀ (fuel : Nat) (l : String) (st : RobotState), sameStruct st st0 → l ≠ r →
      cleanTraversal st0 r fuel l = true →
      (scaleRec fuel st rel (some l)).jointScale = uniformScale st0 rel fuel l st.jointScale := by
  intro fuel
  induction fuel with
  | zero => intro l st hss hlr hclean; rfl
  | succ f ih =>
      intro l st hss hlr hclean
      have hra : st.root = some r := (hss.2.2.2.2.2.2.2).trans hroot
      have hbeq : ((some l : Option String) == st.root) = false := by
        rw [hra]
        exact beq_eq_false_iff_ne.mpr (fun hh => hlr (Option.some.inj hh))
      have hch : st.linkChildJoints = st0.linkChildJoints := hss.2.2.1
      have hunfold : scaleRec (f + 1) st rel (some l) =
          { scaleStep rel (fun s lo => scaleRec f s rel lo)
              ((alookup st.linkChildJoints l).getD []) st with scaleFactor := rel } := by
        simp [scaleRec, hbeq]
      rw [hunfold]
      show (scaleStep rel (fun s lo => scaleRec f s rel lo)
          ((alookup st.linkChildJoints l).getD []) st).jointScale = _
      rw [hch]
      exact scaleStep_sim st0 r rel f hroot ih _ st hss
        (cleanTraversal_children st0 r f l hclean)

theorem scaleRec_top (st : RobotState) (r : String) (factor : ℚ) (F : Nat)
    (hroot : st.root = some r) (hclean : cleanTraversal st r (F + 1) r = true) :
    (scaleRec (F + 1) st factor none).jointScale =
        uniformScale st (factor / st.scaleFactor) (F + 1) r st.jointScale ∧
      (scaleRec (F + 1) st factor none).scaleFactor = factor ∧
      sameStruct (scaleRec (F + 1) st factor none) st := by
  have hunfold : scaleRec (F + 1) st factor none =
      { scaleStep (factor / st.scaleFactor)
          (fun s lo => scaleRec F s (factor / st.scaleFactor) lo)
          ((alookup st.linkChildJoints r).getD []) st with scaleFactor := factor } := by
    simp [scaleRec, hroot]
  refine ⟨?_, ?_, ?_⟩
  · rw [hunfold]
    show (scaleStep (factor / st.scaleFactor)
        (fun s lo => scaleRec F s (factor / st.scaleFactor) lo)
        ((alookup st.linkChildJoints r).getD []) st).jointScale = _
    exact scaleStep_sim st r (factor / st.scaleFactor) F hroot
      (scaleRec_uniform st r (factor / st.scaleFactor) hroot F) _ st (sameStruct_refl st)
      (cleanTraversal_children st r F r hclean)
  · rw [hunfold]
  · rw [hunfold]
    exact sameStruct_trans (sameStruct_scaleFactor _ _)
      (scaleStep_struct _ _ (fun s lo => scaleRec_struct F s _ lo) _ st)

/-- Claim C9: calling `scale(f)` and then `scale(g)` (both absolute, with
no link argument) leaves the recorded scale factor at `f` after the first
call and at `g` after the second, and the second call applies the
relative multiplier `g / f` uniformly to every joint of the tree
traversal. -/
theorem c9_scale_relative (st : RobotState) (r : String) (F : Nat) (f g : ℚ)
    (hr : st.root = some r) (hclean : cleanTraversal st r (F + 1) r = true)
    (hf : 0 < f) (hg : 0 < g) :
    (scaleRec (F + 1) st f none).scaleFactor = f ∧
      (scaleRec (F + 1) (scaleRec (F + 1) st f none) g none).scaleFactor = g ∧
      (scaleRec (F + 1) (scaleRec (F + 1) st f none) g none).jointScale =
        uniformScale (scaleRec (F + 1) st f none) (g / f) (F + 1) r
          (scaleRec (F + 1) st f none).jointScale := by
  obtain ⟨hjs1, hsf1, hss1⟩ := scaleRec_top st r f F hr hclean
  have hr1 : (scaleRec (F + 1) st f none).root = some r := (hss1.2.2.2.2.2.2.2).trans hr
  have hclean1 : cleanTraversal (scaleRec (F + 1) st f none) r (F + 1) r = true := by
    rw [cleanTraversal_congr hss1 r (F + 1) r]
    exact hclean
  obtain ⟨hjs2, hsf2, hss2⟩ := scaleRec_top (scaleRec (F + 1) st f none) r g F hr1 hclean1
  refine ⟨hsf1, hsf2, ?_⟩
  rw [hjs2, hsf1]

/-- Witness for C9: scaling the chain state by `2` and then by `3` leaves
the scale factor at `3` and applies the relative multiplier `3 / 2` to
the joint scales on the second call. -/
theorem c9_scale_relative_witness :
    (scaleRec 2 wStateChain 2 none).scaleFactor = 2 ∧
      (scaleRec 2 (scaleRec 2 wStateChain 2 none) 3 none).scaleFactor = 3 ∧
      (scaleRec 2 (scaleRec 2 wStateChain 2 none) 3 none).jointScale =
        uniformScale (scaleRec 2 wStateChain 2 none) (3 / 2) 2 ("l0")
          (scaleRec 2 wStateChain 2 none).jointScale :=
  c9_scale_relative wStateChain ("l0") 1 2 3 rfl (by decide) (by norm_num) (by norm_num)
